import Mathlib

/-!
Verification of the session-telemetry and launch-configuration subsystem of
the anntnzrb/.claude repository (TypeScript sources under src/bin/lib).

The embedding is shallow: each TypeScript function of interest is translated
into a computable Lean definition. JavaScript strings are Lean Strings, but
the JavaScript string operations (trim, split, startsWith, includes, replace)
are re-implemented here over the underlying character lists with structural
or fuel-bounded recursion, so that every definition evaluates inside the
kernel. JSON values are modelled by the inductive type JVal; JSON numbers are
modelled as integers (the token counters handled by this subsystem are exact
integers, so double-precision rounding never enters the modelled fragment).
A transcript line is a RawLine: its raw text paired with the result of
JSON.parse on it (none when parsing throws); theorems quantify over all such
pairs and concrete inputs use pairs realizable by JSON.parse.
-/

/- ********** JavaScript string-operation models ********** -/

/-- Strip a prefix from a character list, returning the remainder when the
prefix matches (helper for the split model). -/
def stripPrefixL : List Char → List Char → Option (List Char)
  | [], rest => some rest
  | _ :: _, [] => none
  | p :: ps, c :: cs => if p == c then stripPrefixL ps cs else none

/-- Fuel-bounded splitter over character lists. With fuel at least the length
of the input and a non-empty separator it computes exactly
JavaScript String.prototype.split with a string separator. -/
def splitOnF (sep : List Char) : Nat → List Char → List (List Char)
  | _, [] => [[]]
  | 0, l => [l]
  | fuel + 1, c :: rest =>
    match stripPrefixL sep (c :: rest) with
    | some rest2 => [] :: splitOnF sep fuel rest2
    | none =>
      match splitOnF sep fuel rest with
      | [] => [[c]]
      | g :: gs => (c :: g) :: gs

/-- Model of JavaScript s.split(sep) for a non-empty string separator. -/
def strSplitOn (s sep : String) : List String :=
  (splitOnF sep.data (s.data.length + 1) s.data).map (fun l => ⟨l⟩)

/-- Model of JavaScript s.trim(): drop whitespace from both ends. -/
def strTrim (s : String) : String :=
  ⟨((s.data.dropWhile Char.isWhitespace).reverse.dropWhile Char.isWhitespace).reverse⟩

/-- Model of JavaScript s.startsWith(pre). -/
def strStartsWith (s pre : String) : Bool := pre.data.isPrefixOf s.data

/-- Fuel-bounded substring search over character lists (helper for the
includes model). -/
def containsSubF (pat : List Char) : Nat → List Char → Bool
  | _, [] => pat.isEmpty
  | 0, l => pat.isPrefixOf l
  | fuel + 1, c :: rest => pat.isPrefixOf (c :: rest) || containsSubF pat fuel rest

/-- Model of JavaScript s.includes(pat). -/
def strIncludes (s pat : String) : Bool := containsSubF pat.data s.data.length s.data

/-- Model of JavaScript s.replace(pat, "") with a string (non-regex) pattern:
only the first occurrence is removed. -/
def removeFirst (s pat : String) : String :=
  match strSplitOn s pat with
  | [] => s
  | [_] => s
  | a :: rest => a ++ String.intercalate pat rest

/-- Model of JavaScript xs.slice(-2): the last two elements (all of them when
there are fewer than two). -/
def takeLast2 (l : List String) : List String := l.drop (l.length - 2)

/- ********** JSON value model ********** -/

/-- A decoded JSON value. Objects are field lists with unique keys, as
produced by JSON.parse (duplicate keys in the source text are collapsed by
the parser before this subsystem ever sees the value). -/
inductive JVal where
  | null : JVal
  | bool : Bool → JVal
  | num : Int → JVal
  | str : String → JVal
  | arr : List JVal → JVal
  | obj : List (String × JVal) → JVal

/-- First binding of a key in a field list (keys are unique, see JVal.obj). -/
def lookupField (fs : List (String × JVal)) (k : String) : Option JVal :=
  (fs.find? (fun p => p.1 == k)).map (fun p => p.2)

/-- Property access on a decoded value: a present object field, undefined
(none) otherwise. Accessing a property of null throws in JavaScript, but
every access site modelled here sits under a catch-all handler whose result
coincides with treating the access as undefined, so none is the faithful
observable result there as well. -/
def jget (j : JVal) (k : String) : Option JVal :=
  match j with
  | JVal.obj fs => lookupField fs k
  | _ => none

/-- Optional-chaining access o?.k on a possibly-undefined value. -/
def mget (o : Option JVal) (k : String) : Option JVal :=
  match o with
  | some j => jget j k
  | none => none

/-- JavaScript truthiness of a JSON value. -/
def JVal.truthy : JVal → Bool
  | JVal.null => false
  | JVal.bool b => b
  | JVal.num n => !(n == 0)
  | JVal.str s => !(s == "")
  | JVal.arr _ => true
  | JVal.obj _ => true

/-- JavaScript truthiness of a possibly-undefined value. -/
def truthyO : Option JVal → Bool
  | none => false
  | some j => j.truthy

/-- Strict equality with the boolean literal true (JavaScript v === true). -/
def isStrictTrue : Option JVal → Bool
  | some (JVal.bool true) => true
  | _ => false

/-- Whether a possibly-undefined value is exactly the given string
(JavaScript v === "s"). -/
def isStrV (o : Option JVal) (s : String) : Bool :=
  match o with
  | some (JVal.str t) => t == s
  | _ => false

/-- Model of (field || 0) followed by numeric addition: the numeric value of
a usage counter, 0 when the field is absent or 0. Non-numeric truthy
counters fall outside the exact-integer fragment modelled here and are
mapped to 0. -/
def numOr0 : Option JVal → Int
  | some (JVal.num n) => n
  | _ => 0

/- ********** Transcript model (statusline.ts) ********** -/

/-- One line of the newline-delimited transcript: its raw text together with
the result of JSON.parse on it (none when parsing throws). A transcript file
is the list of its lines in file order, as produced by content.split("\n"). -/
structure RawLine where
  text : String
  parsed : Option JVal

/-- The fixed synthetic-content markers of isUserMessage
(src/bin/lib/statusline.ts). -/
def syntheticMarkers : List String :=
  ["<command-name>", "<local-command-stdout>", "Caveat: The messages below"]

/-- Model of (entry.message?.content || "").includes(pattern) for each
pattern: substring test on string content, element test on array content;
falsy content behaves as the empty string. JavaScript throws a TypeError
when .includes is invoked on a truthy non-string non-array value; the
enclosing catch in isUserMessage turns that into a false classification,
which is what the true branch below produces once negated. -/
def contentIncludesAny (content : Option JVal) (pats : List String) : Bool :=
  match content with
  | none => false
  | some v =>
    if v.truthy then
      match v with
      | JVal.str s => pats.any (fun p => strIncludes s p)
      | JVal.arr xs => pats.any (fun p => xs.any (fun e => isStrV (some e) p))
      | _ => true
    else false

/-- Model of isUserMessage (src/bin/lib/statusline.ts lines 198 to 214): a
line is a quota-relevant user message iff it decodes, has type "user", no
toolUseResult, isMeta not truthy, and its content carries no synthetic
marker. Decode failures (and the property-access TypeError on a decoded
null) are caught and classified false. -/
def isUserMessage (line : RawLine) : Bool :=
  match line.parsed with
  | none => false
  | some JVal.null => false
  | some entry =>
    isStrV (jget entry "type") "user" &&
    !truthyO (jget entry "toolUseResult") &&
    !truthyO (jget entry "isMeta") &&
    !(contentIncludesAny (mget (jget entry "message") "content") syntheticMarkers)

/-- Model of countUserMessages (src/bin/lib/statusline.ts lines 225 to 231):
non-blank lines are classified by isUserMessage and the true results are
counted. -/
def countUserMessages (file : List RawLine) : Nat :=
  (((file.filter (fun l => !(strTrim l.text == ""))).map isUserMessage).filter
    (fun b => b)).length

/-- The three-way filter of parseLineForMetrics: a usage block is present,
isSidechain is not strictly true, and a truthy timestamp is present. -/
def qualifiesForMetrics (data : JVal) : Bool :=
  truthyO (mget (jget data "message") "usage") &&
  !(isStrictTrue (jget data "isSidechain")) &&
  truthyO (jget data "timestamp")

/-- Model of parseLineForMetrics (src/bin/lib/statusline.ts lines 238 to
246): a singleton holding the decoded entry when it qualifies, the empty
list on a decode failure or a non-qualifying entry. -/
def parseLineForMetrics (line : RawLine) : List JVal :=
  match line.parsed with
  | none => []
  | some data => if qualifiesForMetrics data then [data] else []

/-- The raw-line filter of getTokenMetrics: non-blank and starting with an
opening brace. -/
def metricsLineFilter (l : RawLine) : Bool :=
  !(strTrim l.text == "") && strStartsWith l.text "\x7b"

/-- The entry list getTokenMetrics extracts before sorting: filtered lines,
each mapped through parseLineForMetrics, flattened in file order. -/
def survivors (file : List RawLine) : List JVal :=
  ((file.filter metricsLineFilter).map parseLineForMetrics).flatten

/-- Sort key of getTokenMetrics: new Date(a.timestamp).getTime(), abstracted
as a caller-supplied integer-valued function of the timestamp field (Date
parsing is not re-implemented; every theorem below holds for every such
function). -/
def tkey (dateFn : Option JVal → Int) (e : JVal) : Int := dateFn (jget e "timestamp")

/-- Stable insertion of one element into a list: placed before the first
element of strictly greater or equal-and-later key position, i.e. before the
first y with key x ≤ key y. -/
def insertStable {α : Type} (key : α → Int) (x : α) : List α → List α
  | [] => [x]
  | y :: ys => if key x ≤ key y then x :: y :: ys else y :: insertStable key x ys

/-- Stable ascending sort by an integer key. Array.prototype.sort with the
comparator (a, b) => key a - key b is required by the language to be stable,
and the stable ascending reordering of a list is unique, so any correct
implementation computes this function; insertion sort is used here. -/
def sortByKey {α : Type} (key : α → Int) : List α → List α
  | [] => []
  | x :: xs => insertStable key x (sortByKey key xs)

/-- The entry getTokenMetrics selects: last element of the stable ascending
sort of the survivors (sortedEntries.at(-1)). -/
def selectedEntry (dateFn : Option JVal → Int) (file : List RawLine) : Option JVal :=
  (sortByKey (tkey dateFn) (survivors file)).getLast?

/-- Final step of getTokenMetrics: the context length of the selected entry,
0 when no entry was selected or it lacks a truthy usage block. -/
def contextLengthOf (entry : Option JVal) : Int :=
  match entry with
  | none => 0
  | some e =>
    let usage := mget (jget e "message") "usage"
    if truthyO usage then
      numOr0 (mget usage "input_tokens") +
      numOr0 (mget usage "cache_read_input_tokens") +
      numOr0 (mget usage "cache_creation_input_tokens")
    else 0

/-- Model of getTokenMetrics (src/bin/lib/statusline.ts lines 257 to 281) on
an already-read transcript: filter raw lines, extract qualifying entries,
stable-sort by timestamp key, take the last, sum its input-side token
counters. The missing-file and empty-path branches of the source correspond
to the empty line list. -/
def getTokenMetrics (dateFn : Option JVal → Int) (file : List RawLine) : Int :=
  contextLengthOf (selectedEntry dateFn file)

/- ********** Specification-side definitions for the Usage Aggregator ********** -/

/-- The most recent element per the specification: maximal key, and among
elements sharing the maximal key the one latest in list order. -/
def mostRecent {α : Type} (key : α → Int) : List α → Option α
  | [] => none
  | x :: xs =>
    match mostRecent key xs with
    | none => some x
    | some m => if key m < key x then some x else some m

/-- The specification's context-length formula: input_tokens +
cache_read_input_tokens + cache_creation_input_tokens of an entry. -/
def ctxFormula (e : JVal) : Int :=
  numOr0 (mget (mget (jget e "message") "usage") "input_tokens") +
  numOr0 (mget (mget (jget e "message") "usage") "cache_read_input_tokens") +
  numOr0 (mget (mget (jget e "message") "usage") "cache_creation_input_tokens")

/-- The qualifying entries as claim C2 words them: decoded from every
non-blank line (no opening-brace requirement), carrying a usage block, not
sidechain, carrying a timestamp. -/
def claimedQualifying (file : List RawLine) : List JVal :=
  ((file.filter (fun l => !(strTrim l.text == ""))).map parseLineForMetrics).flatten

/-- The context length claim C2 mandates: the formula applied to the most
recent entry of claimedQualifying, 0 when there is none. -/
def claimedContextLength (dateFn : Option JVal → Int) (file : List RawLine) : Int :=
  match mostRecent (tkey dateFn) (claimedQualifying file) with
  | none => 0
  | some e => ctxFormula e

/- ********** Path Resolver (src/bin/lib/statusline/display/path.ts) ********** -/

/-- Model of node's path.basename on the slash-separated paths handled here:
the last non-empty segment. -/
def basenameOf (p : String) : String :=
  ((((strSplitOn p "/").filter (fun s => !(s == ""))).getLast?).getD p)

/-- Model of .replace(slashAnchoredAtStart, ""): drop one leading slash. -/
def dropLeadingSlash (s : String) : String :=
  if strStartsWith s "/" then s.drop 1 else s

/-- The non-git fallback of getDisplayPath: home-relative remainder (bare
"~" when the remainder is empty) for paths under the home directory, else
the last two path segments joined by "/". -/
def homeFallback (home path : String) : String :=
  if strStartsWith path home then
    (if removeFirst path home == "" then "~" else removeFirst path home)
  else String.intercalate "/" (takeLast2 (strSplitOn path "/"))

/-- Model of getDisplayPath (src/bin/lib/statusline/display/path.ts lines 19
to 48). gitProbe is the stdout of the git rev-parse --show-toplevel
subprocess (none when the command fails), home is homedir(), path is the
already-resolved workspace?.current_dir || cwd || process.cwd(). A falsy
(empty) git-derived display string falls through to the fallback, as with
the || chain in the source. -/
def getDisplayPath (gitProbe : Option String) (home path : String) : String :=
  if path == "" then ""
  else
    let gitPath : Option String :=
      match gitProbe with
      | none => none
      | some out =>
        if !(strTrim out == "") then
          let repoRoot := strTrim out
          let relPath :=
            if dropLeadingSlash (removeFirst path repoRoot) == "" then "."
            else dropLeadingSlash (removeFirst path repoRoot)
          some (if relPath == "." then basenameOf repoRoot
                else basenameOf repoRoot ++ "/" ++ relPath)
        else none
    match gitPath with
    | some g => if !(g == "") then g else homeFallback home path
    | none => homeFallback home path

/- ********** Tool Manifest Builder (src/bin/lib/claude.ts) ********** -/

/-- One user-declared MCP server descriptor, after the McpServer interface
of src/bin/lib/claude.ts (the interface fixes the field set, so the rest of
the destructuring pattern is empty). -/
structure McpServer where
  name : String
  command : Option String
  url : Option String
  env : Option JVal
  disabled : Option Bool

/-- Whether an association list has a binding for a key. -/
def hasKeyS {β : Type} (m : List (String × β)) (k : String) : Bool :=
  m.any (fun p => p.1 == k)

/-- First binding of a key in an association list. -/
def getKeyS {β : Type} (m : List (String × β)) (k : String) : Option β :=
  (m.find? (fun p => p.1 == k)).map (fun p => p.2)

/-- JavaScript object-literal update: spreading an object and then writing
one computed key overwrites an existing binding in place (keeping its
position) and otherwise appends the new binding. -/
def objInsert {β : Type} (m : List (String × β)) (k : String) (v : β) : List (String × β) :=
  if hasKeyS m k then m.map (fun p => if p.1 == k then (k, v) else p)
  else m ++ [(k, v)]

/-- The value a JavaScript object built by successive spreads exposes for a
key: the last binding wins. -/
def lastVal (entry : List (String × JVal)) (k : String) : Option JVal :=
  getKeyS entry.reverse k

/-- The output object built for one enabled descriptor, as the ordered
concatenation of the three conditional spreads of buildMcpServers: the
command branch (type "stdio", executable, argument list from splitting on
single spaces), then the url branch (type "http", url), then the env
passthrough. Later bindings shadow earlier ones, per lastVal. -/
def serverDescriptor (s : McpServer) : List (String × JVal) :=
  (match s.command with
   | none => []
   | some c =>
     if c == "" then []
     else
       [("type", JVal.str "stdio"),
        ("command", JVal.str ((strSplitOn c " ").headD "")),
        ("args", JVal.arr (((strSplitOn c " ").drop 1).map JVal.str))])
  ++ (match s.url with
   | none => []
   | some u => if u == "" then [] else [("type", JVal.str "http"), ("url", JVal.str u)])
  ++ (match s.env with
   | none => []
   | some e => if e.truthy then [("env", e)] else [])

/-- Model of buildMcpServers (src/bin/lib/claude.ts lines 170 to 188): drop
disabled descriptors, then fold the survivors into an object keyed by
descriptor name. -/
def buildMcpServers (arr : List McpServer) : List (String × List (String × JVal)) :=
  (arr.filter (fun s => !(s.disabled.getD false))).foldl
    (fun acc s => objInsert acc s.name (serverDescriptor s)) []

/- ********** JSON serialization model (for JSON.stringify) ********** -/

/-- JSON string escaping for the quote and backslash characters (the
control-character escapes of full JSON.stringify are outside the fragment
this subsystem produces). -/
def renderStr (s : String) : String :=
  "\"" ++ String.join (s.data.map (fun c =>
    if c == '"' then "\\\"" else if c == '\\' then "\\\\" else String.singleton c)) ++ "\""

/-- Model of JSON.stringify on a decoded value: compact rendering. -/
def renderJ : JVal → String
  | JVal.null => "null"
  | JVal.bool b => if b then "true" else "false"
  | JVal.num n => toString n
  | JVal.str s => renderStr s
  | JVal.arr xs => "[" ++ String.intercalate "," (xs.attach.map (fun x => renderJ x.1)) ++ "]"
  | JVal.obj fs =>
    "\x7b" ++ String.intercalate ","
      (fs.attach.map (fun p => renderStr p.1.1 ++ ":" ++ renderJ p.1.2)) ++ "\x7d"
decreasing_by
  · have := List.sizeOf_lt_of_mem x.2
    simp only [JVal.arr.sizeOf_spec]
    omega
  · rcases p with ⟨⟨k, v⟩, hp⟩
    have := List.sizeOf_lt_of_mem hp
    simp only [Prod.mk.sizeOf_spec] at this
    simp only [JVal.obj.sizeOf_spec]
    omega

/-- Model of JSON.stringify on the built server map wrapped in an object
with the single key mcpServers. -/
def renderMcpConfig (servers : List (String × List (String × JVal))) : String :=
  renderJ (JVal.obj [("mcpServers", JVal.obj (servers.map (fun p => (p.1, JVal.obj p.2))))])

/-- Model of the claudeArgs composition inside spawnClaude
(src/bin/lib/claude.ts lines 329 to 336): caller arguments, the
system-prompt flag, and the tool-manifest flags only when the built server
map is non-empty. -/
def claudeArgs (args : List String) (prompt : String)
    (mcpServers : List (String × List (String × JVal))) : List String :=
  args ++ ["--append-system-prompt", prompt] ++
  (if 0 < mcpServers.length then
    ["--mcp-config", renderMcpConfig mcpServers, "--strict-mcp-config"]
  else [])

/- ********** Configuration Merger (src/bin/lib/claude/config/merge.ts) ********** -/

/-- The per-binding effect of spreading the override after the base: a base
binding whose key the override also carries takes the override's value. -/
def updFrom (ov : List (String × JVal)) (p : String × JVal) : String × JVal :=
  match getKeyS ov p.1 with
  | some v => (p.1, v)
  | none => p

/-- Model of the merge step of mergeConfigs (src/bin/lib/claude/config/merge.ts
lines 13 to 25) on two parsed JSON objects: the object-spread
left-to-right semantics of base then override. Base keys keep their
positions (with override values where the override carries the key);
override-exclusive keys are appended in override order. -/
def mergeConfigs (base ov : List (String × JVal)) : List (String × JVal) :=
  base.map (updFrom ov) ++ ov.filter (fun p => !(hasKeyS base p.1))

/- ********** Provider Registry (src/bin/lib/claude/config/providers.ts) ********** -/

/-- A provider registry entry (the static fields of the ProviderConfig
interface; the validator and environment bundle are derived below exactly as
the source derives them). -/
structure ProviderConfig where
  name : String
  baseUrl : String
  haikuModel : String
  sonnetModel : String
  opusModel : String
  apiKeyEnvVar : String
deriving DecidableEq

/-- The error message of createTokenValidator. -/
def validatorMsg (providerName envVarName : String) : String :=
  envVarName ++ " environment variable is required for " ++ providerName ++
  " but is not set or is empty"

/-- Model of createTokenValidator (src/bin/lib/claude/config/providers.ts
lines 24 to 33), with the ambient process.env passed explicitly: an error
naming the variable when it is unset, empty, or whitespace-only; success
otherwise. -/
def createTokenValidator (providerName envVarName : String)
    (env : List (String × String)) : Except String Unit :=
  match getKeyS env envVarName with
  | none => Except.error (validatorMsg providerName envVarName)
  | some token =>
    if token == "" || strTrim token == "" then
      Except.error (validatorMsg providerName envVarName)
    else Except.ok ()

/-- The validator the registry derives for an entry. -/
def ProviderConfig.tokenValidator (p : ProviderConfig)
    (env : List (String × String)) : Except String Unit :=
  createTokenValidator p.name p.apiKeyEnvVar env

/-- Model of createProviderEnv: the fixed runtime-facing variable bundle. -/
def createProviderEnv (c : ProviderConfig) : List (String × String) :=
  [("ANTHROPIC_BASE_URL", c.baseUrl),
   ("API_TIMEOUT_MS", "3000000"),
   ("ANTHROPIC_DEFAULT_HAIKU_MODEL", c.haikuModel),
   ("ANTHROPIC_DEFAULT_SONNET_MODEL", c.sonnetModel),
   ("ANTHROPIC_DEFAULT_OPUS_MODEL", c.opusModel)]

/-- The glm registry entry. -/
def glmProvider : ProviderConfig :=
  ⟨"GLM mode", "https://api.z.ai/api/anthropic", "glm-4.5-air", "glm-4.6",
   "glm-4.6", "ZAI_API_KEY"⟩

/-- The minimax registry entry. -/
def minimaxProvider : ProviderConfig :=
  ⟨"MiniMax M2 mode", "https://api.minimax.io/anthropic", "MiniMax-M2",
   "MiniMax-M2", "MiniMax-M2", "MINIMAX_API_KEY"⟩

/-- The chutes registry entry. -/
def chutesProvider : ProviderConfig :=
  ⟨"Chutes mode", "https://claude.chutes.ai", "deepseek-ai/DeepSeek-V3.2",
   "deepseek-ai/DeepSeek-V3.2", "deepseek-ai/DeepSeek-V3.2", "CHUTES_API_KEY"⟩

/-- The provider registry as a list. -/
def providersList : List ProviderConfig := [glmProvider, minimaxProvider, chutesProvider]

/-- Whether a credential variable is unset, empty, or whitespace-only in an
environment table. -/
def credentialBlank (env : List (String × String)) (v : String) : Bool :=
  match getKeyS env v with
  | none => true
  | some t => strTrim t == ""

/-- Modelled from the spec: the Launch Composer's provider-validation step.
The multi-provider main entry point that pairs the provider registry with
the launch sequence is not among the provided sources (the registry of
src/bin/lib/claude/config/providers.ts and the spawn-argument composition
are; the main that selects a registry provider and runs its validator is
not), so this definition follows section 4.8 of the spec: resolve the
selected provider, validate its credential, abort on validation failure,
otherwise compose the subprocess argument list. An error value is a launch
aborted before any subprocess is spawned. -/
def launchFlow (env : List (String × String)) (selected : Option ProviderConfig)
    (args : List String) (prompt : String) (mcpArray : List McpServer) :
    Except String (List String) :=
  match selected with
  | none => Except.ok (claudeArgs args prompt (buildMcpServers mcpArray))
  | some p =>
    match p.tokenValidator env with
    | Except.error e => Except.error e
    | Except.ok _ => Except.ok (claudeArgs args prompt (buildMcpServers mcpArray))

/- ********** Concrete inputs used in the claim instances ********** -/

/-- The decoded value JSON.parse yields for the object text used in wLine
and wLine2: a usage block with input_tokens 7, and a timestamp. -/
def wEntry : JVal :=
  JVal.obj
    [("message", JVal.obj [("usage", JVal.obj [("input_tokens", JVal.num 7)])]),
     ("timestamp", JVal.str "2024-01-01T00:00:00Z")]

/-- A transcript line whose text carries one leading space before the JSON
object: JSON.parse accepts it (leading whitespace is skipped), yet the raw
text does not start with an opening brace. -/
def wLine : RawLine :=
  ⟨" \x7b\"message\":\x7b\"usage\":\x7b\"input_tokens\":7\x7d\x7d,\"timestamp\":\"2024-01-01T00:00:00Z\"\x7d",
   some wEntry⟩

/-- The same object text without the leading space. -/
def wLine2 : RawLine :=
  ⟨"\x7b\"message\":\x7b\"usage\":\x7b\"input_tokens\":7\x7d\x7d,\"timestamp\":\"2024-01-01T00:00:00Z\"\x7d",
   some wEntry⟩

/-- A one-line transcript whose only line is the whitespace-prefixed wLine. -/
def wFile : List RawLine := [wLine]

/-- A one-line transcript whose only line is wLine2. -/
def wFile2 : List RawLine := [wLine2]

/-- A degenerate timestamp interpretation (every theorem about the Usage
Aggregator holds for every interpretation; the instances only need one). -/
def wDateFn : Option JVal → Int := fun _ => 0

/-- A main-chain usage entry with the earlier timestamp t1. -/
def mainEntry : JVal :=
  JVal.obj
    [("message", JVal.obj [("usage", JVal.obj [("input_tokens", JVal.num 3)])]),
     ("timestamp", JVal.str "t1")]

/-- A sidechain usage entry with the later timestamp t9. -/
def sideEntry : JVal :=
  JVal.obj
    [("message", JVal.obj [("usage", JVal.obj [("input_tokens", JVal.num 9)])]),
     ("timestamp", JVal.str "t9"), ("isSidechain", JVal.bool true)]

/-- The transcript line of mainEntry. -/
def mainLine : RawLine :=
  ⟨"\x7b\"message\":\x7b\"usage\":\x7b\"input_tokens\":3\x7d\x7d,\"timestamp\":\"t1\"\x7d",
   some mainEntry⟩

/-- The transcript line of sideEntry. -/
def sideLine : RawLine :=
  ⟨"\x7b\"message\":\x7b\"usage\":\x7b\"input_tokens\":9\x7d\x7d,\"timestamp\":\"t9\",\"isSidechain\":true\x7d",
   some sideEntry⟩

/-- A transcript where the sidechain entry carries the strictly latest
timestamp. -/
def sideFile : List RawLine := [mainLine, sideLine]

/-- A timestamp interpretation placing t9 strictly after t1. -/
def tsDateFn : Option JVal → Int :=
  fun o => if isStrV o "t9" then 9 else if isStrV o "t1" then 1 else 0

/-- A descriptor carrying both a command and a url. -/
def dBoth : McpServer := ⟨"t", some "docker mcp run", some "http://x", none, none⟩

/-- A disabled descriptor named x. -/
def dDis : McpServer := ⟨"x", none, none, none, some true⟩

/-- An enabled url descriptor that shares the name x. -/
def dEn : McpServer := ⟨"x", none, some "http://u", none, none⟩

/- ********** Helper lemmas: stable sort and most-recent selection ********** -/

theorem insertStable_ne_nil {α : Type} (key : α → Int) (x : α) (l : List α) :
    insertStable key x l ≠ [] := by
  cases l with
  | nil => simp [insertStable]
  | cons y ys =>
    simp only [insertStable]
    split <;> simp

theorem mem_insertStable {α : Type} (key : α → Int) (x a : α) (l : List α) :
    a ∈ insertStable key x l ↔ a = x ∨ a ∈ l := by
  induction l with
  | nil => simp [insertStable]
  | cons y ys ih =>
    simp only [insertStable]
    split
    · simp [List.mem_cons]
    · simp only [List.mem_cons, ih]
      tauto

theorem mem_sortByKey {α : Type} (key : α → Int) (a : α) (l : List α) :
    a ∈ sortByKey key l ↔ a ∈ l := by
  induction l with
  | nil => simp [sortByKey]
  | cons x xs ih =>
    simp only [sortByKey, mem_insertStable, ih, List.mem_cons]

theorem getLast?_cons_of_ne_nil {α : Type} (a : α) {l : List α} (h : l ≠ []) :
    (a :: l).getLast? = l.getLast? := by
  cases l with
  | nil => exact absurd rfl h
  | cons b bs => exact List.getLast?_cons_cons

theorem getLast?_insertStable {α : Type} (key : α → Int) (x : α) (l : List α) :
    (insertStable key x l).getLast? =
      if l.all (fun y => decide (key y < key x)) then some x else l.getLast? := by
  induction l with
  | nil => simp [insertStable]
  | cons y ys ih =>
    simp only [insertStable, List.all_cons]
    by_cases h : key x ≤ key y
    · have hd : decide (key y < key x) = false := by
        simp only [decide_eq_false_iff_not]
        omega
      rw [if_pos h]
      simp only [hd, Bool.false_and, Bool.false_eq_true, if_false]
      exact List.getLast?_cons_cons
    · have hd : decide (key y < key x) = true := by
        simp only [decide_eq_true_eq]
        omega
      rw [if_neg h]
      simp only [hd, Bool.true_and]
      rw [getLast?_cons_of_ne_nil y (insertStable_ne_nil key x ys), ih]
      by_cases hall : (ys.all fun y => decide (key y < key x)) = true
      · rw [if_pos hall, if_pos hall]
      · rw [if_neg hall, if_neg hall]
        cases ys with
        | nil => simp at hall
        | cons w ws => exact (List.getLast?_cons_cons).symm

theorem mostRecent_eq_none {α : Type} (key : α → Int) (l : List α) :
    mostRecent key l = none ↔ l = [] := by
  cases l with
  | nil => simp [mostRecent]
  | cons x xs =>
    simp only [mostRecent]
    constructor
    · intro hc
      exfalso
      cases h' : mostRecent key xs with
      | none =>
        simp only [h'] at hc
        exact Option.noConfusion hc
      | some m =>
        simp only [h'] at hc
        by_cases hcmp : key m < key x
        · rw [if_pos hcmp] at hc
          cases hc
        · rw [if_neg hcmp] at hc
          cases hc
    · intro hc
      cases hc

theorem mostRecent_mem {α : Type} (key : α → Int) (l : List α) (m : α)
    (h : mostRecent key l = some m) : m ∈ l := by
  induction l generalizing m with
  | nil => cases h
  | cons x xs ih =>
    simp only [mostRecent] at h
    cases h' : mostRecent key xs with
    | none =>
      simp only [h'] at h
      injection h with h
      subst h
      exact List.mem_cons_self x xs
    | some m' =>
      simp only [h'] at h
      by_cases hcmp : key m' < key x
      · rw [if_pos hcmp] at h
        injection h with h
        subst h
        exact List.mem_cons_self x xs
      · rw [if_neg hcmp] at h
        injection h with h
        subst h
        exact List.mem_cons_of_mem x (ih m' h')

theorem mostRecent_le {α : Type} (key : α → Int) (l : List α) (m : α)
    (h : mostRecent key l = some m) : ∀ y ∈ l, key y ≤ key m := by
  induction l generalizing m with
  | nil => cases h
  | cons x xs ih =>
    simp only [mostRecent] at h
    cases h' : mostRecent key xs with
    | none =>
      have hxs : xs = [] := (mostRecent_eq_none key xs).mp h'
      subst hxs
      simp only [h'] at h
      injection h with h
      subst h
      intro y hy
      rcases List.mem_cons.mp hy with rfl | hy'
      · exact le_refl _
      · cases hy'
    | some m' =>
      simp only [h'] at h
      by_cases hcmp : key m' < key x
      · rw [if_pos hcmp] at h
        injection h with h
        subst h
        intro y hy
        rcases List.mem_cons.mp hy with rfl | hy'
        · exact le_refl _
        · have := ih m' h' y hy'
          omega
      · rw [if_neg hcmp] at h
        injection h with h
        subst h
        intro y hy
        rcases List.mem_cons.mp hy with rfl | hy'
        · omega
        · exact ih m' h' y hy'

theorem getLast?_sortByKey {α : Type} (key : α → Int) (l : List α) :
    (sortByKey key l).getLast? = mostRecent key l := by
  induction l with
  | nil => rfl
  | cons x xs ih =>
    simp only [sortByKey, mostRecent]
    rw [getLast?_insertStable]
    cases h : mostRecent key xs with
    | none =>
      have hx : xs = [] := (mostRecent_eq_none key xs).mp h
      subst hx
      simp [sortByKey]
    | some m =>
      have hmem : m ∈ xs := mostRecent_mem key xs m h
      have hle := mostRecent_le key xs m h
      simp only [h]
      by_cases hmx : key m < key x
      · have hall : (sortByKey key xs).all (fun y => decide (key y < key x)) = true := by
          rw [List.all_eq_true]
          intro y hy
          have := hle y ((mem_sortByKey key y xs).mp hy)
          simp only [decide_eq_true_eq]
          omega
        rw [if_pos hall, if_pos hmx]
      · have hall : (sortByKey key xs).all (fun y => decide (key y < key x)) = false := by
          cases hv : (sortByKey key xs).all (fun y => decide (key y < key x)) with
          | false => rfl
          | true =>
            exfalso
            have := List.all_eq_true.mp hv m ((mem_sortByKey key m xs).mpr hmem)
            simp only [decide_eq_true_eq] at this
            omega
        rw [if_neg (by simp [hall]), if_neg hmx]
        exact ih.trans h

theorem mostRecent_split {α : Type} (key : α → Int) (l : List α) (m : α)
    (h : mostRecent key l = some m) :
    ∃ pre post, l = pre ++ m :: post ∧ (∀ y ∈ pre, key y ≤ key m) ∧
      ∀ y ∈ post, key y < key m := by
  induction l generalizing m with
  | nil => cases h
  | cons x xs ih =>
    simp only [mostRecent] at h
    cases h' : mostRecent key xs with
    | none =>
      have hxs : xs = [] := (mostRecent_eq_none key xs).mp h'
      subst hxs
      simp only [h'] at h
      injection h with h
      subst h
      exact ⟨[], [], rfl, by simp, by simp⟩
    | some m' =>
      simp only [h'] at h
      by_cases hcmp : key m' < key x
      · rw [if_pos hcmp] at h
        injection h with h
        subst h
        refine ⟨[], xs, rfl, by simp, ?_⟩
        intro y hy
        have := mostRecent_le key xs m' h' y hy
        omega
      · rw [if_neg hcmp] at h
        injection h with h
        subst h
        obtain ⟨pre, post, heq, hpre, hpost⟩ := ih m' h'
        refine ⟨x :: pre, post, by rw [heq, List.cons_append], ?_, hpost⟩
        intro y hy
        rcases List.mem_cons.mp hy with rfl | hy'
        · omega
        · exact hpre y hy'

/- ********** Helper lemmas: association lists, object spread, fold ********** -/

theorem getKeyS_cons {β : Type} (p : String × β) (ps : List (String × β)) (k : String) :
    getKeyS (p :: ps) k = if p.1 == k then some p.2 else getKeyS ps k := by
  simp only [getKeyS, List.find?_cons]
  cases h : (p.1 == k) <;> simp [h]

theorem hasKeyS_cons {β : Type} (p : String × β) (ps : List (String × β)) (k : String) :
    hasKeyS (p :: ps) k = (p.1 == k || hasKeyS ps k) := by
  simp [hasKeyS, List.any_cons]

theorem hasKeyS_append {β : Type} (l r : List (String × β)) (k : String) :
    hasKeyS (l ++ r) k = (hasKeyS l k || hasKeyS r k) := by
  simp [hasKeyS, List.any_append]

theorem getKeyS_append {β : Type} (l r : List (String × β)) (k : String) :
    getKeyS (l ++ r) k =
      match getKeyS l k with
      | some v => some v
      | none => getKeyS r k := by
  induction l with
  | nil => simp [getKeyS]
  | cons p ps ih =>
    rw [List.cons_append, getKeyS_cons, getKeyS_cons]
    by_cases hp : p.1 = k <;> simp [hp, ih]

theorem getKeyS_eq_none_of_not_hasKey {β : Type} (l : List (String × β)) (k : String)
    (h : hasKeyS l k = false) : getKeyS l k = none := by
  induction l with
  | nil => rfl
  | cons p ps ih =>
    rw [hasKeyS_cons] at h
    rcases Bool.or_eq_false_iff.mp h with ⟨h1, h2⟩
    rw [getKeyS_cons, if_neg (by simp [h1])]
    exact ih h2

theorem getKeyS_map_update {β : Type} (m : List (String × β)) (k : String) (v : β) :
    getKeyS (m.map (fun p => if p.1 == k then (k, v) else p)) k =
      if hasKeyS m k then some v else none := by
  induction m with
  | nil => simp [getKeyS, hasKeyS]
  | cons p ps ih =>
    rw [List.map_cons, getKeyS_cons, hasKeyS_cons]
    by_cases hp : p.1 = k
    · simp [hp]
    · simp [hp]
      simpa using ih

theorem getKeyS_map_update_other {β : Type} (m : List (String × β)) (k k' : String) (v : β)
    (hne : k' ≠ k) :
    getKeyS (m.map (fun p => if p.1 == k then (k, v) else p)) k' = getKeyS m k' := by
  have hkk : ¬ (k = k') := fun he => hne he.symm
  induction m with
  | nil => rfl
  | cons p ps ih =>
    rw [List.map_cons, getKeyS_cons, getKeyS_cons]
    by_cases hp : p.1 = k
    · simp [hp, hkk]
      simpa using ih
    · by_cases hq : p.1 = k'
      · simp [hp, hq, hne]
      · simp [hp, hq]
        simpa using ih

theorem getKeyS_objInsert_self {β : Type} (m : List (String × β)) (k : String) (v : β) :
    getKeyS (objInsert m k v) k = some v := by
  unfold objInsert
  cases h : hasKeyS m k with
  | true =>
    simp only [h, if_true]
    rw [getKeyS_map_update, h]
    rfl
  | false =>
    simp only [h, Bool.false_eq_true, if_false]
    rw [getKeyS_append, getKeyS_eq_none_of_not_hasKey m k h]
    simp [getKeyS_cons]

theorem getKeyS_objInsert_other {β : Type} (m : List (String × β)) (k k' : String) (v : β)
    (hne : k' ≠ k) : getKeyS (objInsert m k v) k' = getKeyS m k' := by
  unfold objInsert
  cases h : hasKeyS m k with
  | true =>
    simp only [h, if_true]
    exact getKeyS_map_update_other m k k' v hne
  | false =>
    simp only [h, Bool.false_eq_true, if_false]
    rw [getKeyS_append]
    cases hg : getKeyS m k' with
    | some w => rfl
    | none =>
      have : (k == k') = false := by
        simp only [beq_eq_false_iff_ne]
        exact fun he => hne he.symm
      simp [getKeyS_cons, this, getKeyS]

theorem foldl_objInsert_preserve (L : List McpServer) (acc : List (String × List (String × JVal)))
    (k : String) (h : ∀ s ∈ L, s.name ≠ k) :
    getKeyS (L.foldl (fun acc s => objInsert acc s.name (serverDescriptor s)) acc) k =
      getKeyS acc k := by
  induction L generalizing acc with
  | nil => rfl
  | cons t ts ih =>
    rw [List.foldl_cons]
    rw [ih _ (fun s hs => h s (List.mem_cons_of_mem t hs))]
    exact getKeyS_objInsert_other acc t.name k (serverDescriptor t)
      (fun he => h t (List.mem_cons_self t ts) he.symm)

theorem foldl_objInsert_lookup (L : List McpServer) (acc : List (String × List (String × JVal)))
    (s : McpServer) (hs : s ∈ L) (hnd : (L.map McpServer.name).Nodup) :
    getKeyS (L.foldl (fun acc s => objInsert acc s.name (serverDescriptor s)) acc) s.name =
      some (serverDescriptor s) := by
  induction L generalizing acc with
  | nil => cases hs
  | cons t ts ih =>
    rw [List.foldl_cons]
    rw [List.map_cons, List.nodup_cons] at hnd
    rcases List.mem_cons.mp hs with rfl | hmem
    · have hni : ∀ u ∈ ts, u.name ≠ s.name := by
        intro u hu he
        exact hnd.1 (he ▸ List.mem_map_of_mem McpServer.name hu)
      rw [foldl_objInsert_preserve ts _ _ hni]
      exact getKeyS_objInsert_self acc s.name (serverDescriptor s)
    · exact ih _ hmem hnd.2

/- ********** Helper lemmas: survivors, classification, merge ********** -/

theorem mem_survivors_qualifies (file : List RawLine) (e : JVal)
    (he : e ∈ survivors file) : qualifiesForMetrics e = true := by
  unfold survivors at he
  rw [List.mem_flatten] at he
  obtain ⟨l, hl, hel⟩ := he
  rw [List.mem_map] at hl
  obtain ⟨line, _, rfl⟩ := hl
  unfold parseLineForMetrics at hel
  cases hp : line.parsed with
  | none =>
    simp only [hp] at hel
    cases hel
  | some data =>
    simp only [hp] at hel
    by_cases hq : qualifiesForMetrics data = true
    · rw [if_pos hq] at hel
      rcases List.mem_singleton.mp hel with rfl
      exact hq
    · rw [if_neg hq] at hel
      cases hel

theorem contextLengthOf_qualifies (e : JVal) (h : qualifiesForMetrics e = true) :
    contextLengthOf (some e) = ctxFormula e := by
  unfold qualifiesForMetrics at h
  rw [Bool.and_eq_true, Bool.and_eq_true] at h
  simp only [contextLengthOf, ctxFormula]
  rw [if_pos h.1.1]

theorem countUserMessages_eq_countP (file : List RawLine) :
    countUserMessages file =
      (file.filter (fun l => !(strTrim l.text == ""))).countP isUserMessage := by
  unfold countUserMessages
  rw [List.countP_eq_length_filter]
  induction (file.filter (fun l => !(strTrim l.text == ""))) with
  | nil => rfl
  | cons l ls ih =>
    rw [List.map_cons, List.filter_cons, List.filter_cons]
    cases h : isUserMessage l with
    | true => simp [h, ih]
    | false => simp [h, ih]

theorem map_id_of_forall {α : Type} (f : α → α) (l : List α)
    (h : ∀ x ∈ l, f x = x) : l.map f = l := by
  induction l with
  | nil => rfl
  | cons x xs ih =>
    rw [List.map_cons, h x (List.mem_cons_self x xs),
      ih (fun y hy => h y (List.mem_cons_of_mem x hy))]

theorem updFrom_fst (ov : List (String × JVal)) (p : String × JVal) :
    (updFrom ov p).1 = p.1 := by
  unfold updFrom
  cases h : getKeyS ov p.1 <;> simp [h]

theorem updFrom_idem (ov : List (String × JVal)) (p : String × JVal) :
    updFrom ov (updFrom ov p) = updFrom ov p := by
  unfold updFrom
  cases h : getKeyS ov p.1 with
  | none => simp [h]
  | some v => simp [h]

theorem getKeyS_self_of_nodup {β : Type} (o : List (String × β))
    (hnd : (o.map Prod.fst).Nodup) (p : String × β) (hp : p ∈ o) :
    getKeyS o p.1 = some p.2 := by
  induction o with
  | nil => cases hp
  | cons q qs ih =>
    rw [List.map_cons, List.nodup_cons] at hnd
    rcases List.mem_cons.mp hp with rfl | hmem
    · rw [getKeyS_cons, if_pos (by simp)]
    · rw [getKeyS_cons]
      have h1 : ¬ (q.1 == p.1) = true := by
        simp only [beq_iff_eq]
        intro he
        exact hnd.1 (he ▸ List.mem_map_of_mem Prod.fst hmem)
      rw [if_neg h1]
      exact ih hnd.2 hmem

theorem hasKeyS_map_updFrom (b : List (String × JVal)) (ov : List (String × JVal)) (k : String) :
    hasKeyS (b.map (updFrom ov)) k = hasKeyS b k := by
  induction b with
  | nil => rfl
  | cons p ps ih =>
    rw [List.map_cons, hasKeyS_cons, hasKeyS_cons, updFrom_fst, ih]

theorem mergeConfigs_idem (b o : List (String × JVal)) (hnd : (o.map Prod.fst).Nodup) :
    mergeConfigs (mergeConfigs b o) o = mergeConfigs b o := by
  have part2 : (o.filter (fun p => !(hasKeyS (mergeConfigs b o) p.1))) = [] := by
    rw [List.filter_eq_nil_iff]
    intro p hp
    have hk : hasKeyS (mergeConfigs b o) p.1 = true := by
      unfold mergeConfigs
      rw [hasKeyS_append, hasKeyS_map_updFrom]
      cases hb : hasKeyS b p.1 with
      | true => rfl
      | false =>
        have h2 : hasKeyS (o.filter (fun q => !(hasKeyS b q.1))) p.1 = true := by
          unfold hasKeyS
          rw [List.any_eq_true]
          exact ⟨p, List.mem_filter.mpr ⟨hp, show (!(hasKeyS b p.1)) = true by rw [hb]; rfl⟩, by simp⟩
        rw [h2]
        simp
    simp [hk]
  have part1 : (mergeConfigs b o).map (updFrom o) = mergeConfigs b o := by
    unfold mergeConfigs
    rw [List.map_append, List.map_map]
    congr 1
    · have hf : (updFrom o ∘ updFrom o) = updFrom o :=
        funext fun p => updFrom_idem o p
      rw [hf]
    · apply map_id_of_forall
      intro p hp
      have hpo : p ∈ o := (List.mem_filter.mp hp).1
      unfold updFrom
      rw [getKeyS_self_of_nodup o hnd p hpo]
  show (mergeConfigs b o).map (updFrom o) ++
    (o.filter (fun p => !(hasKeyS (mergeConfigs b o) p.1))) = mergeConfigs b o
  rw [part1, part2, List.append_nil]

/- ********** Claim theorems ********** -/

/-- Claim C2, counterexample to the claim as stated: a transcript whose only
line parses (JSON.parse skips leading whitespace) and satisfies all three
stated qualifying conditions (usage block, not sidechain, timestamp), yet
getTokenMetrics reports 0 because the raw line does not start with an
opening brace, while the claim mandates the entry's token sum 7. -/
theorem getTokenMetrics_braceFilter_counterexample :
    getTokenMetrics wDateFn wFile = 0 ∧
    qualifiesForMetrics wEntry = true ∧
    claimedContextLength wDateFn wFile = 7 := ⟨rfl, rfl, rfl⟩

/-- Claim C2 (amended): over the lines that pass the raw-line filter
(non-blank and starting with an opening brace), the context length equals
input_tokens + cache_read_input_tokens + cache_creation_input_tokens of the
most recent qualifying entry, is 0 when no entry qualifies, and the selected
entry is maximal in timestamp key with the latest-in-file-order entry
winning ties: every entry after it in the survivor order has a strictly
smaller key. The theorem holds for every integer-valued interpretation
dateFn of new Date(timestamp).getTime(). -/
theorem getTokenMetrics_mostRecent_spec (dateFn : Option JVal → Int) (file : List RawLine) :
    getTokenMetrics dateFn file =
      (match mostRecent (tkey dateFn) (survivors file) with
       | none => 0
       | some e => ctxFormula e) ∧
    ∀ e, mostRecent (tkey dateFn) (survivors file) = some e →
      ∃ pre post, survivors file = pre ++ e :: post ∧
        (∀ y ∈ pre, tkey dateFn y ≤ tkey dateFn e) ∧
        ∀ y ∈ post, tkey dateFn y < tkey dateFn e := by
  constructor
  · unfold getTokenMetrics selectedEntry
    rw [getLast?_sortByKey]
    cases h : mostRecent (tkey dateFn) (survivors file) with
    | none => rfl
    | some e =>
      have he : e ∈ survivors file := mostRecent_mem (tkey dateFn) (survivors file) e h
      exact contextLengthOf_qualifies e (mem_survivors_qualifies file e he)
  · intro e he
    exact mostRecent_split (tkey dateFn) (survivors file) e he

/-- Claim C2, witness: the amended selection property evaluated on the
brace-prefixed one-line transcript wFile2. -/
theorem getTokenMetrics_mostRecent_spec_witness :
    ∃ pre post, survivors wFile2 = pre ++ wEntry :: post ∧
      (∀ y ∈ pre, tkey wDateFn y ≤ tkey wDateFn wEntry) ∧
      ∀ y ∈ post, tkey wDateFn y < tkey wDateFn wEntry :=
  (getTokenMetrics_mostRecent_spec wDateFn wFile2).2 wEntry rfl

/-- Claim C3: an entry whose isSidechain field is strictly true is never the
entry the Usage Aggregator selects, whatever the transcript and whatever the
timestamp interpretation (in particular even when its timestamp is strictly
the latest). -/
theorem selectedEntry_never_sidechain (dateFn : Option JVal → Int) (file : List RawLine)
    (e : JVal) (h : selectedEntry dateFn file = some e) :
    isStrictTrue (jget e "isSidechain") = false := by
  have he : e ∈ survivors file := by
    unfold selectedEntry at h
    rw [getLast?_sortByKey] at h
    exact mostRecent_mem (tkey dateFn) (survivors file) e h
  have hq := mem_survivors_qualifies file e he
  unfold qualifiesForMetrics at hq
  rw [Bool.and_eq_true, Bool.and_eq_true] at hq
  have := hq.1.2
  rw [Bool.not_eq_true'] at this
  exact this

/-- Claim C3, witness: on sideFile the sidechain entry carries the strictly
latest timestamp under tsDateFn, yet the selected entry is the main-chain
one, and the theorem certifies it is not sidechain-flagged. -/
theorem selectedEntry_never_sidechain_witness :
    isStrictTrue (jget mainEntry "isSidechain") = false ∧
    tkey tsDateFn sideEntry > tkey tsDateFn mainEntry :=
  ⟨selectedEntry_never_sidechain tsDateFn sideFile mainEntry rfl, by decide⟩

/-- Claim C4: merging base a:1, b:2 with override b:3, c:4 yields exactly
a:1, b:3, c:4 (override wins on shared keys, union otherwise, base order
first), and for every base and every override object (unique keys, as
JSON.parse produces) the merge is idempotent in the override. -/
theorem mergeConfigs_example_and_idem :
    mergeConfigs [("a", JVal.num 1), ("b", JVal.num 2)] [("b", JVal.num 3), ("c", JVal.num 4)] =
      [("a", JVal.num 1), ("b", JVal.num 3), ("c", JVal.num 4)] ∧
    ∀ (b o : List (String × JVal)), (o.map Prod.fst).Nodup →
      mergeConfigs (mergeConfigs b o) o = mergeConfigs b o :=
  ⟨rfl, fun b o hnd => mergeConfigs_idem b o hnd⟩

/-- Claim C4, witness: idempotence evaluated at the example base and
override. -/
theorem mergeConfigs_example_and_idem_witness :
    mergeConfigs
      (mergeConfigs [("a", JVal.num 1), ("b", JVal.num 2)] [("b", JVal.num 3), ("c", JVal.num 4)])
      [("b", JVal.num 3), ("c", JVal.num 4)] =
    mergeConfigs [("a", JVal.num 1), ("b", JVal.num 2)] [("b", JVal.num 3), ("c", JVal.num 4)] :=
  mergeConfigs_example_and_idem.2 _ _ (by decide)

/-- Claim C5: the Message Classifier is a total boolean function of the line
(the catch-all handler in the source makes every decode failure and every
shape-mismatch TypeError an ordinary false result, never a propagated
exception), and on any decode failure the classification is false. -/
theorem isUserMessage_never_throws (line : RawLine) :
    (isUserMessage line = true ∨ isUserMessage line = false) ∧
    (line.parsed = none → isUserMessage line = false) := by
  constructor
  · cases h : isUserMessage line
    · exact Or.inr rfl
    · exact Or.inl rfl
  · intro h
    unfold isUserMessage
    rw [h]

/-- Claim C5, witness: a line that is not valid JSON classifies as false. -/
theorem isUserMessage_never_throws_witness :
    isUserMessage ⟨"not valid json", none⟩ = false :=
  (isUserMessage_never_throws ⟨"not valid json", none⟩).2 rfl

/-- Claim C7: the Tool Manifest Builder maps the empty descriptor list to
the empty map, and in that case the composed subprocess argument list is
exactly the caller arguments plus the system-prompt flag: the
tool-configuration flags are omitted entirely, not passed with an empty
object. -/
theorem emptyManifest_omits_flag :
    buildMcpServers [] = [] ∧
    ∀ (args : List String) (prompt : String),
      claudeArgs args prompt (buildMcpServers []) =
        args ++ ["--append-system-prompt", prompt] := by
  refine ⟨rfl, fun args prompt => ?_⟩
  simp [claudeArgs, buildMcpServers]

/-- Claim C8: the Path Resolver evaluated at the three inputs of the claim.
The first two results match the claim (git root found: root-relative display
with the root's base name). The third diverges: for the non-repository path
/home/user/docs under home /home/user the code displays "/docs" — the
home-prefix is removed but no tilde is prepended — while the claim, the
specification, and the source function's own doc comment (which promises
forms like "~/path") say "~/docs"; the bare "~" is produced only when the
remainder is empty. -/
theorem getDisplayPath_eval_cases :
    getDisplayPath (some "/home/user/projects/repo\n") "/home/user" "/home/user/projects/repo/src" =
      "repo/src" ∧
    getDisplayPath (some "/home/user/projects/repo\n") "/home/user" "/home/user/projects/repo" =
      "repo" ∧
    getDisplayPath none "/home/user" "/home/user/docs" = "/docs" := ⟨rfl, rfl, rfl⟩

/-- Claim C10: a line whose raw text does not start with an opening brace
contributes nothing to the Usage Aggregator — the survivor list and the
token metrics are those of the transcript without the line, for every
timestamp interpretation — while the turn-counting path still considers the
line whenever it is non-blank. -/
theorem metrics_ignores_nonbrace_lines (file₁ : List RawLine) (line : RawLine)
    (file₂ : List RawLine) (h : strStartsWith line.text "\x7b" = false) :
    survivors (file₁ ++ line :: file₂) = survivors (file₁ ++ file₂) ∧
    (∀ dateFn, getTokenMetrics dateFn (file₁ ++ line :: file₂) =
      getTokenMetrics dateFn (file₁ ++ file₂)) ∧
    countUserMessages (file₁ ++ line :: file₂) =
      countUserMessages (file₁ ++ file₂) +
        (if strTrim line.text == "" then 0 else if isUserMessage line then 1 else 0) := by
  have hf : metricsLineFilter line = false := by
    unfold metricsLineFilter
    rw [h, Bool.and_false]
  have hs : survivors (file₁ ++ line :: file₂) = survivors (file₁ ++ file₂) := by
    unfold survivors
    rw [List.filter_append, List.filter_append, List.filter_cons]
    rw [if_neg (by simp [hf])]
  refine ⟨hs, fun dateFn => ?_, ?_⟩
  · unfold getTokenMetrics selectedEntry
    rw [hs]
  · rw [countUserMessages_eq_countP, countUserMessages_eq_countP]
    rw [List.filter_append, List.filter_append, List.filter_cons]
    cases ht : (strTrim line.text == "") with
    | true =>
      rw [if_neg (by simp [ht])]
      simp
    | false =>
      rw [if_pos (by simp [ht])]
      rw [List.countP_append, List.countP_append, List.countP_cons]
      cases hm : isUserMessage line with
      | true => simp [hm]; omega
      | false => simp [hm]

/-- Claim C10, witness: the whitespace-prefixed line wLine (which parses and
carries a qualifying usage entry) is invisible to the Usage Aggregator while
the turn counter still considers it. -/
theorem metrics_ignores_nonbrace_lines_witness :
    survivors ([] ++ wLine :: [wLine2]) = survivors ([] ++ [wLine2]) ∧
    getTokenMetrics wDateFn ([] ++ wLine :: [wLine2]) =
      getTokenMetrics wDateFn ([] ++ [wLine2]) ∧
    countUserMessages ([] ++ wLine :: [wLine2]) =
      countUserMessages ([] ++ [wLine2]) +
        (if strTrim wLine.text == "" then 0 else if isUserMessage wLine then 1 else 0) :=
  ⟨(metrics_ignores_nonbrace_lines [] wLine [wLine2] rfl).1,
   (metrics_ignores_nonbrace_lines [] wLine [wLine2] rfl).2.1 wDateFn,
   (metrics_ignores_nonbrace_lines [] wLine [wLine2] rfl).2.2⟩

/-- Claim C1, counterexample to the claim as stated: for a descriptor with
both a command and a url, the url spread comes last in buildMcpServers, so
the emitted type tag is "http", not the "stdio" the claim mandates. -/
theorem buildMcpServers_both_counterexample :
    getKeyS (buildMcpServers [dBoth]) "t" = some (serverDescriptor dBoth) ∧
    lastVal (serverDescriptor dBoth) "type" = some (JVal.str "http") ∧
    isStrV (lastVal (serverDescriptor dBoth) "type") "stdio" = false := ⟨rfl, rfl, rfl⟩

/-- Claim C1 (amended): for an enabled descriptor carrying both a non-empty
command and a non-empty url (names unique across the list), the output entry
for its name is its serverDescriptor, whose effective type tag is "http" —
the later url spread wins over the command spread — while the url, the split
command executable, and the argument list are all still present. -/
theorem buildMcpServers_both_url_wins (arr : List McpServer) (s : McpServer)
    (hs : s ∈ arr) (hnd : (arr.map McpServer.name).Nodup)
    (hdis : s.disabled ≠ some true) (c u : String)
    (hc : s.command = some c) (hcne : c ≠ "") (hu : s.url = some u) (hune : u ≠ "") :
    getKeyS (buildMcpServers arr) s.name = some (serverDescriptor s) ∧
    lastVal (serverDescriptor s) "type" = some (JVal.str "http") ∧
    lastVal (serverDescriptor s) "url" = some (JVal.str u) ∧
    lastVal (serverDescriptor s) "command" = some (JVal.str ((strSplitOn c " ").headD "")) ∧
    lastVal (serverDescriptor s) "args" =
      some (JVal.arr (((strSplitOn c " ").drop 1).map JVal.str)) := by
  have hpred : (!(s.disabled.getD false)) = true := by
    cases hd : s.disabled with
    | none => rfl
    | some b =>
      cases b with
      | true => exact absurd hd hdis
      | false => rfl
  have hmap : getKeyS (buildMcpServers arr) s.name = some (serverDescriptor s) := by
    unfold buildMcpServers
    apply foldl_objInsert_lookup
    · exact List.mem_filter.mpr ⟨hs, hpred⟩
    · exact (List.Sublist.map McpServer.name (List.filter_sublist arr)).nodup hnd
  have h1 : (c == "") = false := by simp [hcne]
  have h2 : (u == "") = false := by simp [hune]
  have hsd : serverDescriptor s =
      [("type", JVal.str "stdio"),
       ("command", JVal.str ((strSplitOn c " ").headD "")),
       ("args", JVal.arr (((strSplitOn c " ").drop 1).map JVal.str)),
       ("type", JVal.str "http"),
       ("url", JVal.str u)] ++
      (match s.env with
       | none => []
       | some e => if e.truthy then [("env", e)] else []) := by
    simp only [serverDescriptor, hc, hu, h1, h2, Bool.false_eq_true, if_false]
    rfl
  refine ⟨hmap, ?_, ?_, ?_, ?_⟩
  all_goals
    rw [hsd]
    cases henv : s.env with
    | none => rfl
    | some e =>
      cases ht : e.truthy with
      | true =>
        simp only [ht, eq_self_iff_true, if_true]
        rfl
      | false =>
        simp only [ht, Bool.false_eq_true, if_false]
        rfl

/-- Claim C1, witness: the amended statement evaluated at the concrete
descriptor with command "docker mcp run" and url "http://x". -/
theorem buildMcpServers_both_url_wins_witness :
    getKeyS (buildMcpServers [dBoth]) dBoth.name = some (serverDescriptor dBoth) ∧
    lastVal (serverDescriptor dBoth) "type" = some (JVal.str "http") ∧
    lastVal (serverDescriptor dBoth) "url" = some (JVal.str "http://x") ∧
    lastVal (serverDescriptor dBoth) "command" =
      some (JVal.str ((strSplitOn "docker mcp run" " ").headD "")) ∧
    lastVal (serverDescriptor dBoth) "args" =
      some (JVal.arr (((strSplitOn "docker mcp run" " ").drop 1).map JVal.str)) :=
  buildMcpServers_both_url_wins [dBoth] dBoth (List.mem_cons_self dBoth [])
    (by decide) (by decide) "docker mcp run" "http://x" rfl (by decide) rfl (by decide)

/-- Claim C9, counterexample to the claim as stated: with a disabled
descriptor named x and a second, enabled descriptor of the same name, the
name x does appear as a key of the output map. -/
theorem buildMcpServers_disabled_name_counterexample :
    dDis.disabled = some true ∧
    hasKeyS (buildMcpServers [dDis, dEn]) "x" = true := ⟨rfl, rfl⟩

/-- Claim C9 (amended): a disabled descriptor never contributes an entry:
when every descriptor sharing its name is disabled as well, the name is
absent from the Tool Manifest Builder's output, regardless of the
descriptor's other fields. -/
theorem buildMcpServers_disabled_dropped (arr : List McpServer) (s : McpServer)
    (hs : s ∈ arr) (hdis : s.disabled = some true)
    (hall : ∀ t ∈ arr, t.name = s.name → t.disabled = some true) :
    getKeyS (buildMcpServers arr) s.name = none := by
  have _ := hs
  have _ := hdis
  unfold buildMcpServers
  have hni : ∀ t ∈ (arr.filter (fun s => !(s.disabled.getD false))), t.name ≠ s.name := by
    intro t ht he
    rcases List.mem_filter.mp ht with ⟨htmem, hpred⟩
    rw [hall t htmem he] at hpred
    simp at hpred
  rw [foldl_objInsert_preserve _ _ _ hni]
  rfl

/-- Claim C9, witness: a transcript of one disabled descriptor yields a map
without its name. -/
theorem buildMcpServers_disabled_dropped_witness :
    getKeyS (buildMcpServers [dDis]) dDis.name = none :=
  buildMcpServers_disabled_dropped [dDis] dDis (List.mem_cons_self dDis []) rfl (by decide)

/-- Claim C6: for every registered provider, a credential variable that is
unset, empty, or whitespace-only makes the validator signal the error that
names the variable, and the launch flow aborts with that error before any
subprocess argument list is composed; a credential that is non-empty after
trimming validates successfully. The error message begins with the variable
name. -/
theorem providerValidation_gates_launch (p : ProviderConfig) (hp : p ∈ providersList)
    (env : List (String × String)) :
    (credentialBlank env p.apiKeyEnvVar = true →
      p.tokenValidator env = Except.error (validatorMsg p.name p.apiKeyEnvVar) ∧
      ∀ (args : List String) (prompt : String) (mcp : List McpServer),
        launchFlow env (some p) args prompt mcp =
          Except.error (validatorMsg p.name p.apiKeyEnvVar)) ∧
    (credentialBlank env p.apiKeyEnvVar = false →
      p.tokenValidator env = Except.ok ()) ∧
    (∃ rest, validatorMsg p.name p.apiKeyEnvVar = p.apiKeyEnvVar ++ rest) := by
  have _ := hp
  refine ⟨?_, ?_, ?_⟩
  · intro hb
    have hv : p.tokenValidator env = Except.error (validatorMsg p.name p.apiKeyEnvVar) := by
      unfold ProviderConfig.tokenValidator createTokenValidator
      unfold credentialBlank at hb
      cases h : getKeyS env p.apiKeyEnvVar with
      | none => simp only [h]
      | some t =>
        simp only [h] at hb ⊢
        rw [if_pos (by rw [hb]; simp)]
    refine ⟨hv, fun args prompt mcp => ?_⟩
    simp only [launchFlow]
    rw [hv]
  · intro hb
    unfold ProviderConfig.tokenValidator createTokenValidator
    unfold credentialBlank at hb
    cases h : getKeyS env p.apiKeyEnvVar with
    | none =>
      simp only [h] at hb
      exact absurd hb (by decide)
    | some t =>
      simp only [h] at hb ⊢
      have ht : (t == "") = false := by
        cases he : (t == "") with
        | false => rfl
        | true =>
          have he2 : t = "" := by simpa using he
          rw [he2] at hb
          exact absurd hb (by decide)
      have hcond : (t == "" || strTrim t == "") = false := by
        rw [ht, hb]
        rfl
      rw [if_neg (by simp [hcond])]
  · exact ⟨" environment variable is required for " ++ p.name ++ " but is not set or is empty",
      by simp [validatorMsg, String.append_assoc]⟩

/-- Claim C6, witness: the glm provider with a whitespace-only ZAI_API_KEY
fails validation and the launch flow aborts with the variable-naming error
before spawn. -/
theorem providerValidation_gates_launch_witness :
    glmProvider.tokenValidator [("ZAI_API_KEY", "   ")] =
      Except.error (validatorMsg glmProvider.name glmProvider.apiKeyEnvVar) ∧
    launchFlow [("ZAI_API_KEY", "   ")] (some glmProvider) [] "" [] =
      Except.error (validatorMsg glmProvider.name glmProvider.apiKeyEnvVar) :=
  ⟨((providerValidation_gates_launch glmProvider (by simp [providersList])
      [("ZAI_API_KEY", "   ")]).1 rfl).1,
   ((providerValidation_gates_launch glmProvider (by simp [providersList])
      [("ZAI_API_KEY", "   ")]).1 rfl).2 [] "" []⟩
